import Mathlib

/-!
Verification of the block-wise INT4/INT8 quantizer in
`src/trab3/scripts/quantize_blockwise.py`.

The Python source works on numpy float32/int8 arrays.  The embedding models
the real-valued data as exact rationals (`ℚ`): every concrete value appearing
in the spec's scenarios (3.5, 0.5, …) is exactly representable in float32, so
the exact-arithmetic model agrees with the source on them.  Machine integers
are modelled as `ℤ`/`ℕ`; the int8 store is lossless for the clipped code
ranges.  Fallible code (the `ValueError` raised for an unsupported bit width,
and the `ZeroDivisionError` a zero block size would raise at the
`n_blocks = (n + block_size - 1) // block_size` computation) is modelled with
`Except String`.
-/

set_option allowUnsafeReducibility true in
attribute [semireducible] Rat.mul Rat.inv Rat.add Rat.sub Rat.ofScientific

set_option maxRecDepth 2000

namespace BlockQuant

/-- Floor of a rational, executable (`q.num / q.den` with Euclidean integer
division, which floors for a positive denominator). -/
def rfloor (q : ℚ) : ℤ := q.num / q.den

theorem rfloor_eq (q : ℚ) : rfloor q = ⌊q⌋ := (Rat.floor_def).symm

/-- Numpy rounding `numpy.round`: round half to even (banker's rounding), embedded exactly:
the nearest integer, with ties going to the even neighbour. -/
def roundEven (q : ℚ) : ℤ :=
  if q - (rfloor q : ℚ) < 1/2 then rfloor q
  else if 1/2 < q - (rfloor q : ℚ) then rfloor q + 1
  else if Even (rfloor q) then rfloor q else rfloor q + 1

/-- Clamp `ndarray.clip(lo, hi)` on an integer value. -/
def clip (v lo hi : ℤ) : ℤ := min (max v lo) hi

/-- Clamp on rationals, for stating the dequantization error bound
`|dequantize(quantize(x)) − clip(x, levelMin·s, levelMax·s)| ≤ s/2`. -/
def clipQ (x lo hi : ℚ) : ℚ := min (max x lo) hi

/-- The `max_val` of `quantize_blockwise` (lines 91-98): 7 for 4-bit, 127 for
8-bit. -/
def maxValOf (bits : ℕ) : ℤ := if bits = 4 then 7 else 127

/-- The `min_val` of `quantize_blockwise` (lines 91-98): −8 for 4-bit, −128 for
8-bit. -/
def minValOf (bits : ℕ) : ℤ := if bits = 4 then -8 else -128

/-- Block maximum `np.abs(block).max()` (line 109).  A block is never empty in the source
(every block has exactly `block_size ≥ 1` elements); on `[]` this returns 0. -/
def maxAbs (block : List ℚ) : ℚ := (block.map (fun x => |x|)).foldr max 0

/-- Scale of one block (lines 108-114): `max_abs / max_val` if `max_abs > 0`,
else the sentinel `1.0`. -/
def scaleOf (block : List ℚ) (maxVal : ℤ) : ℚ :=
  if 0 < maxAbs block then maxAbs block / (maxVal : ℚ) else 1

/-- One element's code (line 117): `round(x / scale).clip(min_val, max_val)`. -/
def quantCode (x s : ℚ) (bits : ℕ) : ℤ :=
  clip (roundEven (x / s)) (minValOf bits) (maxValOf bits)

/-- Line 117 applied to a whole block. -/
def quantBlock (b : List ℚ) (bits : ℕ) : List ℤ :=
  b.map (fun x => quantCode x (scaleOf b (maxValOf bits)) bits)

/-- Reshape `flat.reshape(n_blocks, block_size)` (line 88): cut `l` into `k` rows of
`B` elements (structural in the row count `k`, exactly the `n_blocks`
iterations of the quantization loop). -/
def toBlocks : ℕ → ℕ → List ℚ → List (List ℚ)
  | 0, _, _ => []
  | k + 1, B, l => l.take B :: toBlocks k B (l.drop B)

/-- Block count `n_blocks = (n_elements + block_size - 1) // block_size` (line 80). -/
def nBlocksOf (B n : ℕ) : ℕ := (n + B - 1) / B

/-- Zero padding to a multiple of the block size (lines 81-85). -/
def paddedOf (B : ℕ) (t : List ℚ) : List ℚ :=
  t ++ List.replicate (nBlocksOf B t.length * B - t.length) 0

/-- The padded flat buffer cut into blocks (lines 80-88). -/
def blocksOf (B : ℕ) (t : List ℚ) : List (List ℚ) :=
  toBlocks (nBlocksOf B t.length) B (paddedOf B t)

/-- The per-block scales array (lines 105-120). -/
def scalesOf (B bits : ℕ) (t : List ℚ) : List ℚ :=
  (blocksOf B t).map (fun b => scaleOf b (maxValOf bits))

/-- Truncation `quantized_blocks.flatten()[:n_elements]` (line 123): all block codes
flattened, with the zero-padded tail positions discarded. -/
def codesOf (B bits : ℕ) (t : List ℚ) : List ℤ :=
  (((blocksOf B t).map (fun b => quantBlock b bits)).flatten).take t.length

/-- Python's `c & 0x0F` on an arbitrary int: the low nibble.  For every
Python integer `c & 15 == c % 16` with nonnegative result, i.e. the Euclidean
remainder `emod`. -/
def lowNibble (c : ℤ) : ℕ := (c.emod 16).toNat

/-- The INT4 packing loop (lines 133-137): pack consecutive pairs, first code
of the pair in the high nibble, `((val1 << 4) | val2)` with
`val1 = c0 & 0x0F`, `val2 = c1 & 0x0F`. -/
def pack4 : List ℤ → List ℕ
  | c0 :: c1 :: rest => ((lowNibble c0 <<< 4) ||| lowNibble c1) :: pack4 rest
  | _ => []

/-- Lines 126-137: pad the flat code stream with one zero code if its length
is odd, then pack pairs. -/
def pack4Padded (codes : List ℤ) : List ℕ :=
  if codes.length % 2 = 1 then pack4 (codes ++ [0]) else pack4 codes

/-- Quantized payload: a packed byte buffer for INT4, one int8 code per
element for INT8. -/
inductive QData where
  | packed (bytes : List ℕ)
  | codes (cs : List ℤ)
deriving DecidableEq

/-- The quadruple returned by `quantize_blockwise` (line 144):
`(quantized, scales, original_shape, bits)`. -/
structure QuantResult where
  data : QData
  scales : List ℚ
  shape : List ℕ
  bits : ℕ
deriving DecidableEq

instance {ε α : Type} [DecidableEq ε] [DecidableEq α] : DecidableEq (Except ε α) :=
  fun x y =>
    match x, y with
    | .ok a, .ok b =>
      if h : a = b then isTrue (by rw [h]) else isFalse (by intro he; cases he; exact h rfl)
    | .error e, .error f =>
      if h : e = f then isTrue (by rw [h]) else isFalse (by intro he; cases he; exact h rfl)
    | .ok _, .error _ => isFalse (by intro h; cases h)
    | .error _, .ok _ => isFalse (by intro h; cases h)

/-- The function `quantize_blockwise(tensor, block_size, bits)` (lines 40-144) on the
flattened tensor.  `shape` is the numpy shape, carried through unchanged
(`original_shape`); for INT8 the codes are reshaped back to it, which the
flat model records by returning the `n_elements` codes plus the shape. -/
def quantize_blockwise (shape : List ℕ) (tensor : List ℚ) (block_size bits : ℕ) :
    Except String QuantResult :=
  if ¬ (bits = 4 ∨ bits = 8) then .error ("Unsupported bit width") else
  if block_size = 0 then .error ("ZeroDivisionError") else
  if bits = 4 then
    .ok ⟨.packed (pack4Padded (codesOf block_size bits tensor)),
         scalesOf block_size bits tensor, shape, bits⟩
  else
    .ok ⟨.codes (codesOf block_size bits tensor),
         scalesOf block_size bits tensor, shape, bits⟩

/-- Modelled from the spec: the repository has no 4-bit unpacker under
`src/` (only the packing side exists, in `quantize_blockwise`).  Per the
spec's BitUnpacker: sign-extend a 4-bit nibble into a signed code in
`[−8, 7]` by interpreting bit 3 of the nibble as the sign bit. -/
def signExtend4 (nib : ℕ) : ℤ := if 8 ≤ nib then (nib : ℤ) - 16 else (nib : ℤ)

/-- Modelled from the spec: unpacking "extract high/low nibble, then
sign-extend each 4-bit value"; the high nibble of each byte comes first. -/
def unpack4 (bytes : List ℕ) : List ℤ :=
  bytes.flatMap (fun b => [signExtend4 (b / 16), signExtend4 (b % 16)])

/-- Rounding with ties away from zero — the rounding rule the spec asserts
for the quantizer, written from the spec's words for comparison with the
source's `numpy.round`. -/
def roundHalfAway (q : ℚ) : ℤ :=
  if 0 ≤ q then rfloor (q + 1/2) else -(rfloor (-q + 1/2))

/-- Python's substring test `pat in s` on lists of characters. -/
def containsSub (pat : List Char) : List Char → Bool
  | [] => pat.isPrefixOf []
  | c :: cs => pat.isPrefixOf (c :: cs) || containsSub pat cs

/-- The policy `should_quantize_tensor(name, tensor)` (lines 147-192).  The tensor enters
only through `tensor.size`, passed here as `size`; `name_lower = name.lower()`
is the lowercased name (ASCII `str.lower`). -/
def should_quantize_tensor (name : List Char) (size : ℕ) : Bool :=
  let nameLower := name.map Char.toLower
  if size < 512 then false
  else if containsSub (("embed").toList) nameLower then false
  else if containsSub (("norm").toList) nameLower ||
          containsSub (("ln").toList) nameLower then false
  else if containsSub (("bias").toList) nameLower then false
  else if containsSub (("weight").toList) nameLower then true
  else if 10000 < size then true
  else false

/-- The spec's TensorSelectionPolicy, written from its words as an ordered
rule table, first match wins: a rule is a predicate on
`(name, elementCount)` paired with the decision `true = quantize`,
`false = keep`; the default when no rule matches is keep.  Name containment
is on the lowercased name, as the source's `name.lower()` fixes the reading
of the spec's "name contains". -/
def specRules : List ((List Char → ℕ → Bool) × Bool) :=
  [ (fun _ n => n < 512, false),
    (fun s _ => containsSub (("embed").toList) (s.map Char.toLower), false),
    (fun s _ => containsSub (("norm").toList) (s.map Char.toLower) ||
                containsSub (("ln").toList) (s.map Char.toLower), false),
    (fun s _ => containsSub (("bias").toList) (s.map Char.toLower), false),
    (fun s _ => containsSub (("weight").toList) (s.map Char.toLower), true),
    (fun _ n => 10000 < n, true) ]

/-- First matching rule wins; no match means keep (`false`). -/
def firstMatch (name : List Char) (size : ℕ) :
    List ((List Char → ℕ → Bool) × Bool) → Bool
  | [] => false
  | r :: rs => if r.1 name size then r.2 else firstMatch name size rs

/-- The spec's policy: the ordered rule list evaluated first-match-first. -/
def specPolicy (name : List Char) (size : ℕ) : Bool :=
  firstMatch name size specRules

/-- One input tensor of the model: name, numpy shape, flattened float32
buffer. -/
structure NamedTensor where
  name : List Char
  shape : List ℕ
  data : List ℚ
deriving DecidableEq

/-- Byte size `tensor.nbytes` for the float32 tensors the model is read as: 4 bytes per
element. -/
def nbytes (t : NamedTensor) : ℕ := 4 * t.data.length

/-- One entry of the output tensor set `quantized_tensors`. -/
inductive OutEntry where
  | raw (t : NamedTensor)
  | packed (bytes : List ℕ)
  | codes (cs : List ℤ)
  | scaleArr (s : List ℚ)
deriving DecidableEq

/-- Byte size of a quantized payload as stored: a packed buffer is uint8 (one
byte each), INT8 codes are int8 (one byte each). -/
def qdataBytes : QData → ℕ
  | .packed bytes => bytes.length
  | .codes cs => cs.length

/-- The MB divisor `1024 * 1024` of the statistics. -/
def MBq : ℚ := 1048576

/-- The running state of `quantize_model`'s loop over tensors (lines 239-282):
output set and the accumulated statistics fields. -/
structure RunState where
  out : List (List Char × OutEntry)
  origMB : ℚ
  qMB : ℚ
  sMB : ℚ
  nQuant : ℕ
  nKept : ℕ
deriving DecidableEq

/-- The suffix `".__scales__"` appended to a quantized tensor's name. -/
def scalesSuffix : List Char := (".__scales__").toList

/-- One iteration of the loop of `quantize_model` (lines 252-282): add the
tensor's byte size to the original total; then either quantize it (store the
packed tensor and its scales, count the packed bytes and the float32 scale
bytes) or keep it verbatim (its original bytes are added to
`quantized_size_mb`, line 279). -/
def stepTensor (block_size bits : ℕ) (st : RunState) (t : NamedTensor) :
    Except String RunState :=
  let origSize : ℚ := (nbytes t : ℚ)
  let st := { st with origMB := st.origMB + origSize / MBq }
  if should_quantize_tensor t.name t.data.length then
    match quantize_blockwise t.shape t.data block_size bits with
    | .error e => .error e
    | .ok r =>
      .ok { st with
            out := st.out ++ [(t.name, match r.data with
                                | .packed bytes => OutEntry.packed bytes
                                | .codes cs => OutEntry.codes cs),
                              (t.name ++ scalesSuffix, OutEntry.scaleArr r.scales)],
            qMB := st.qMB + (qdataBytes r.data : ℚ) / MBq,
            sMB := st.sMB + (4 * r.scales.length : ℚ) / MBq,
            nQuant := st.nQuant + 1 }
  else
    .ok { st with
          out := st.out ++ [(t.name, OutEntry.raw t)],
          qMB := st.qMB + origSize / MBq,
          nKept := st.nKept + 1 }

/-- The loop of `quantize_model` over all tensors, aborting on the first
raised error (fail-fast: a `ValueError` from `quantize_blockwise` propagates
out of `quantize_model`). -/
def runTensors (block_size bits : ℕ) (st : RunState) :
    List NamedTensor → Except String RunState
  | [] => .ok st
  | t :: ts =>
    match stepTensor block_size bits st t with
    | .error e => .error e
    | .ok st2 => runTensors block_size bits st2 ts

/-- The statistics dict built by `quantize_model` (lines 240-297). -/
structure ModelStats where
  totalTensors : ℕ
  quantizedTensors : ℕ
  keptOriginal : ℕ
  originalMB : ℚ
  quantizedMB : ℚ
  scalesMB : ℚ
  totalMB : ℚ
  compressionFactor : ℚ
deriving DecidableEq

/-- The orchestrator `quantize_model` (lines 195-299) after the tensors have
been read from the store: run the loop (which already wrote the output set via
`save_file`, line 288), then compute the final statistics with
`compression_ratio = original_size_mb / (total_quantized)` (lines 291-292).
When `total_quantized` is 0 — the empty model, or a model whose tensors all
have zero bytes — Python raises `ZeroDivisionError` at line 292, modelled as
`.error`; every accumulated contribution is nonnegative, so the float total is
0 exactly when the rational total is.  (The further division at line 293 by
`original_size_mb` cannot fail once line 292 succeeded: any tensor that
contributes to the denominator also contributes original bytes.)  On success
returns the output tensor set together with the statistics. -/
def quantize_model (tensors : List NamedTensor) (block_size bits : ℕ) :
    Except String (List (List Char × OutEntry) × ModelStats) :=
  match runTensors block_size bits ⟨[], 0, 0, 0, 0, 0⟩ tensors with
  | .error e => .error e
  | .ok st =>
    if st.qMB + st.sMB = 0 then .error ("ZeroDivisionError") else
    .ok (st.out,
         { totalTensors := tensors.length,
           quantizedTensors := st.nQuant,
           keptOriginal := st.nKept,
           originalMB := st.origMB,
           quantizedMB := st.qMB,
           scalesMB := st.sMB,
           totalMB := st.qMB + st.sMB,
           compressionFactor := st.origMB / (st.qMB + st.sMB) })

/-- The reported compression ratio of a finished run, 0 for a failed one. -/
def reportedRatioQ (r : Except String (List (List Char × OutEntry) × ModelStats)) : ℚ :=
  match r with
  | .ok (_, stats) => stats.compressionFactor
  | .error _ => 0

/-- True iff the run finished without an exception. -/
def runOk (r : Except String (List (List Char × OutEntry) × ModelStats)) : Bool :=
  match r with
  | .ok _ => true
  | .error _ => false

/-- The byte totals named by the spec's claim: original bytes of all tensors. -/
def specOrigBytes (ts : List NamedTensor) : ℕ := (ts.map nbytes).sum

/-- Packed-data bytes of one tensor if it is quantized, per the source's
quantizer; 0 on the error paths. -/
def tensorPackedBytes (block_size bits : ℕ) (t : NamedTensor) : ℕ :=
  match quantize_blockwise t.shape t.data block_size bits with
  | .ok r => qdataBytes r.data
  | .error _ => 0

/-- Scale bytes of one tensor if it is quantized (float32 scales, 4 bytes per
block); 0 on the error paths. -/
def tensorScaleBytes (block_size bits : ℕ) (t : NamedTensor) : ℕ :=
  match quantize_blockwise t.shape t.data block_size bits with
  | .ok r => 4 * r.scales.length
  | .error _ => 0

/-- The spec's "totalPackedBytes": packed-data bytes summed over the tensors
the policy quantizes. -/
def specPackedBytes (block_size bits : ℕ) (ts : List NamedTensor) : ℕ :=
  ((ts.filter (fun t => should_quantize_tensor t.name t.data.length)).map
    (tensorPackedBytes block_size bits)).sum

/-- The spec's "totalScaleBytes": scale bytes summed over the tensors the
policy quantizes. -/
def specScaleBytes (block_size bits : ℕ) (ts : List NamedTensor) : ℕ :=
  ((ts.filter (fun t => should_quantize_tensor t.name t.data.length)).map
    (tensorScaleBytes block_size bits)).sum

/-- The spec's "unquantized total": byte sizes of the tensors kept verbatim. -/
def specKeptBytes (ts : List NamedTensor) : ℕ :=
  ((ts.filter (fun t => !should_quantize_tensor t.name t.data.length)).map
    nbytes).sum

/-! Rounding lemmas -/

theorem rfloor_le (q : ℚ) : ((rfloor q : ℤ) : ℚ) ≤ q := by
  rw [rfloor_eq]; exact Int.floor_le q

theorem lt_rfloor_add_one (q : ℚ) : q < ((rfloor q : ℤ) : ℚ) + 1 := by
  rw [rfloor_eq]; exact Int.lt_floor_add_one q

/-- Numpy rounding is at distance at most 1/2 from its argument. -/
theorem abs_roundEven_sub_le (q : ℚ) : |(roundEven q : ℚ) - q| ≤ 1/2 := by
  have hf := rfloor_le q
  have hf2 := lt_rfloor_add_one q
  unfold roundEven
  split_ifs with h1 h2 h3 <;>
    (rw [abs_le]; constructor <;> push_cast <;> linarith)

theorem rfloor_int_add_half (n : ℤ) : rfloor ((n : ℚ) + 1/2) = n := by
  have h0 : ⌊(1/2 : ℚ)⌋ = 0 := by rw [← rfloor_eq]; decide
  rw [rfloor_eq, Int.floor_int_add, h0, add_zero]

/-- At an exact tie, `numpy.round` picks the even neighbour. -/
theorem roundEven_tie (n : ℤ) :
    roundEven ((n : ℚ) + 1/2) = if Even n then n else n + 1 := by
  have h := rfloor_int_add_half n
  have hr : ((n : ℚ) + 1/2) - ((rfloor ((n : ℚ) + 1/2) : ℤ) : ℚ) = 1/2 := by
    rw [h]; ring
  unfold roundEven
  rw [hr, h]
  norm_num

/-! Block maximum and scale lemmas -/

theorem maxAbs_nil : maxAbs [] = 0 := rfl

theorem maxAbs_cons (x : ℚ) (t : List ℚ) : maxAbs (x :: t) = max |x| (maxAbs t) := rfl

theorem maxAbs_nonneg (b : List ℚ) : 0 ≤ maxAbs b := by
  induction b with
  | nil => simp [maxAbs_nil]
  | cons x t ih => rw [maxAbs_cons]; exact le_max_of_le_right ih

theorem le_maxAbs {x : ℚ} {b : List ℚ} (h : x ∈ b) : |x| ≤ maxAbs b := by
  induction b with
  | nil => cases h
  | cons y t ih =>
    rw [maxAbs_cons]
    rcases List.mem_cons.mp h with h1 | h2
    · subst h1; exact le_max_left _ _
    · exact le_max_of_le_right (ih h2)

theorem maxValOf_pos (bits : ℕ) : 0 < maxValOf bits := by
  unfold maxValOf; split <;> norm_num

theorem minValOf_eq (bits : ℕ) : minValOf bits = -(maxValOf bits) - 1 := by
  unfold minValOf maxValOf; split <;> norm_num

theorem scaleOf_pos (b : List ℚ) {mv : ℤ} (hmv : 0 < mv) : 0 < scaleOf b mv := by
  unfold scaleOf
  split
  · exact div_pos (by assumption) (by exact_mod_cast hmv)
  · norm_num

theorem scaleOf_nonneg (b : List ℚ) (bits : ℕ) :
    0 ≤ scaleOf b (maxValOf bits) :=
  le_of_lt (scaleOf_pos b (maxValOf_pos bits))

theorem maxAbs_eq_zero {b : List ℚ} (h : ∀ x ∈ b, x = 0) : maxAbs b = 0 := by
  induction b with
  | nil => rfl
  | cons y t ih =>
    rw [maxAbs_cons, ih (fun x hx => h x (List.mem_cons_of_mem y hx)),
        h y (List.mem_cons_self y t)]
    simp

theorem scaleOf_all_zero {b : List ℚ} (mv : ℤ) (h : ∀ x ∈ b, x = 0) :
    scaleOf b mv = 1 := by
  unfold scaleOf
  rw [maxAbs_eq_zero h]
  norm_num

/-! Clip lemmas -/

theorem clip_mem {v lo hi : ℤ} (h : lo ≤ hi) :
    lo ≤ clip v lo hi ∧ clip v lo hi ≤ hi := by
  unfold clip
  constructor
  · exact le_min (le_max_right v lo) h
  · exact min_le_right _ _

theorem clip_eq_self {v lo hi : ℤ} (h1 : lo ≤ v) (h2 : v ≤ hi) :
    clip v lo hi = v := by
  unfold clip
  rw [max_eq_left h1, min_eq_left h2]

theorem clipQ_eq_self {x lo hi : ℚ} (h1 : lo ≤ x) (h2 : x ≤ hi) :
    clipQ x lo hi = x := by
  unfold clipQ
  rw [max_eq_left h1, min_eq_left h2]

theorem roundEven_zero : roundEven 0 = 0 := by decide

/-- Dequantization as the source documents it (lines 62-63 of the script):
`dequantized = quantized * scale`. -/
def dequant (code : ℤ) (s : ℚ) : ℚ := (code : ℚ) * s

/-! The per-element dequantization error bound -/

theorem quantCode_eq_roundEven {x s : ℚ} {bits : ℕ}
    (hub : roundEven (x / s) ≤ maxValOf bits)
    (hlb : minValOf bits ≤ roundEven (x / s)) :
    quantCode x s bits = roundEven (x / s) :=
  clip_eq_self hlb hub

theorem dequant_error_core (bits : ℕ) (b : List ℚ) {x : ℚ} (hx : x ∈ b) :
    |dequant (quantCode x (scaleOf b (maxValOf bits)) bits) (scaleOf b (maxValOf bits)) -
      clipQ x ((minValOf bits : ℚ) * scaleOf b (maxValOf bits))
              ((maxValOf bits : ℚ) * scaleOf b (maxValOf bits))| ≤
      scaleOf b (maxValOf bits) / 2 := by
  have hmv : (0 : ℤ) < maxValOf bits := maxValOf_pos bits
  have hmvQ : (0 : ℚ) < (maxValOf bits : ℚ) := by exact_mod_cast hmv
  have hmn : minValOf bits = -(maxValOf bits) - 1 := minValOf_eq bits
  by_cases hm : 0 < maxAbs b
  · -- nonzero block: scale = maxAbs / maxVal
    obtain ⟨s, hsn⟩ : ∃ s, scaleOf b (maxValOf bits) = s := ⟨_, rfl⟩
    rw [hsn]
    have hsdef : s = maxAbs b / (maxValOf bits : ℚ) := by
      rw [← hsn]; unfold scaleOf; rw [if_pos hm]
    have hs : 0 < s := hsn ▸ scaleOf_pos b hmv
    have hmabs : maxAbs b = s * (maxValOf bits : ℚ) := by
      rw [hsdef, div_mul_cancel₀ _ (ne_of_gt hmvQ)]
    have hxle : |x| ≤ s * (maxValOf bits : ℚ) := hmabs ▸ le_maxAbs hx
    have ht : |x / s| ≤ (maxValOf bits : ℚ) := by
      rw [abs_div, abs_of_pos hs]
      rw [div_le_iff₀ hs]
      calc |x| ≤ s * (maxValOf bits : ℚ) := hxle
        _ = (maxValOf bits : ℚ) * s := by ring
    have hre := abs_roundEven_sub_le (x / s)
    have hre1 := (abs_le.mp hre).1
    have hre2 := (abs_le.mp hre).2
    have hta := (abs_le.mp ht).1
    have htb := (abs_le.mp ht).2
    have hubQ : ((roundEven (x / s) : ℤ) : ℚ) < (maxValOf bits : ℚ) + 1 := by linarith
    have hub : roundEven (x / s) ≤ maxValOf bits := by
      have : roundEven (x / s) < maxValOf bits + 1 := by exact_mod_cast hubQ
      omega
    have hlbQ : (-(maxValOf bits : ℚ)) - 1 < ((roundEven (x / s) : ℤ) : ℚ) := by linarith
    have hlb : minValOf bits ≤ roundEven (x / s) := by
      have : -(maxValOf bits) - 1 < roundEven (x / s) := by exact_mod_cast hlbQ
      omega
    rw [quantCode_eq_roundEven hub hlb]
    have hclipQ : clipQ x ((minValOf bits : ℚ) * s) ((maxValOf bits : ℚ) * s) = x := by
      apply clipQ_eq_self
      · have h1 : -|x| ≤ x := neg_abs_le x
        have h2 : ((minValOf bits : ℤ) : ℚ) = -((maxValOf bits : ℤ) : ℚ) - 1 := by
          rw [hmn]; push_cast; ring
        rw [h2]
        nlinarith
      · calc x ≤ |x| := le_abs_self x
          _ ≤ s * (maxValOf bits : ℚ) := hxle
          _ = (maxValOf bits : ℚ) * s := by ring
    rw [hclipQ]
    have hxts : x = x / s * s := (div_mul_cancel₀ x (ne_of_gt hs)).symm
    unfold dequant
    calc |((roundEven (x / s) : ℤ) : ℚ) * s - x|
        = |(((roundEven (x / s) : ℤ) : ℚ) - x / s) * s| := by
          rw [sub_mul]; rw [← hxts]
      _ = |((roundEven (x / s) : ℤ) : ℚ) - x / s| * s := by
          rw [abs_mul, abs_of_pos hs]
      _ ≤ 1 / 2 * s := mul_le_mul_of_nonneg_right hre (le_of_lt hs)
      _ = s / 2 := by ring
  · -- all-|x| ≤ 0 block: x = 0, scale = 1
    have hm0 : maxAbs b = 0 := le_antisymm (not_lt.mp hm) (maxAbs_nonneg b)
    have hx0 : x = 0 := by
      have := le_maxAbs hx
      rw [hm0] at this
      exact abs_eq_zero.mp (le_antisymm this (abs_nonneg x))
    have hs1 : scaleOf b (maxValOf bits) = 1 := by
      unfold scaleOf; rw [if_neg hm]
    rw [hs1, hx0]
    have hq : quantCode 0 1 bits = 0 := by
      unfold quantCode
      rw [div_one, roundEven_zero]
      exact clip_eq_self (by omega) (by omega)
    rw [hq]
    have hcq : clipQ 0 ((minValOf bits : ℚ) * 1) ((maxValOf bits : ℚ) * 1) = 0 := by
      apply clipQ_eq_self
      · rw [mul_one, hmn]; push_cast; linarith
      · rw [mul_one]; positivity
    rw [hcq]
    unfold dequant
    norm_num

/-! Block partition lemmas -/

theorem toBlocks_length (k B : ℕ) (l : List ℚ) : (toBlocks k B l).length = k := by
  induction k generalizing l with
  | zero => rfl
  | succ k ih => simp [toBlocks, ih]

theorem toBlocks_flatten (k B : ℕ) (l : List ℚ) (h : l.length = k * B) :
    (toBlocks k B l).flatten = l := by
  induction k generalizing l with
  | zero =>
    have : l = [] := List.eq_nil_of_length_eq_zero (by omega)
    simp [this, toBlocks]
  | succ k ih =>
    have hdrop : (l.drop B).length = k * B := by
      rw [List.length_drop, h]
      have hBle : B ≤ (k + 1) * B := by
        rw [add_mul, one_mul]; omega
      rw [add_mul, one_mul]; omega
    simp only [toBlocks, List.flatten_cons, ih (l.drop B) hdrop]
    exact List.take_append_drop B l

theorem mem_toBlocks_length {k B : ℕ} {l : List ℚ} (h : l.length = k * B)
    {b : List ℚ} (hb : b ∈ toBlocks k B l) : b.length = B := by
  induction k generalizing l with
  | zero => cases hb
  | succ k ih =>
    rcases List.mem_cons.mp hb with h1 | h2
    · subst h1
      rw [List.length_take, h, add_mul, one_mul]
      omega
    · exact ih (l := l.drop B) (by rw [List.length_drop, h, add_mul, one_mul]; omega) h2

/-- The arithmetic heart of the padding: `(n + B - 1) / B` blocks of `B`
elements cover the `n` original elements. -/
theorem le_nBlocksOf_mul {B : ℕ} (hB : 1 ≤ B) (n : ℕ) : n ≤ nBlocksOf B n * B := by
  cases n with
  | zero => omega
  | succ m =>
    have hB0 : 0 < B := hB
    have heq : m + 1 + B - 1 = m + B := by omega
    rw [nBlocksOf, heq, Nat.add_div_right m hB0]
    have h1 := Nat.div_add_mod m B
    have h2 := Nat.mod_lt m hB0
    rw [add_mul, one_mul, Nat.mul_comm]
    omega

/-- The block count never overshoots: `nBlocksOf B n * B < n + B`. -/
theorem nBlocksOf_mul_lt {B : ℕ} (hB : 1 ≤ B) (n : ℕ) : nBlocksOf B n * B < n + B := by
  cases n with
  | zero =>
    have : nBlocksOf B 0 = 0 := by
      rw [nBlocksOf]
      exact Nat.div_eq_of_lt (by omega)
    rw [this]; omega
  | succ m =>
    have hB0 : 0 < B := hB
    have heq : m + 1 + B - 1 = m + B := by omega
    rw [nBlocksOf, heq, Nat.add_div_right m hB0]
    have h1 := Nat.div_add_mod m B
    have h2 := Nat.mod_lt m hB0
    rw [add_mul, one_mul, Nat.mul_comm]
    omega

theorem paddedOf_length {B : ℕ} (hB : 1 ≤ B) (t : List ℚ) :
    (paddedOf B t).length = nBlocksOf B t.length * B := by
  rw [paddedOf, List.length_append, List.length_replicate]
  have := le_nBlocksOf_mul hB t.length
  omega

theorem blocksOf_flatten {B : ℕ} (hB : 1 ≤ B) (t : List ℚ) :
    (blocksOf B t).flatten = paddedOf B t :=
  toBlocks_flatten _ _ _ (paddedOf_length hB t)

theorem blocksOf_length (B : ℕ) (t : List ℚ) :
    (blocksOf B t).length = nBlocksOf B t.length :=
  toBlocks_length _ _ _

theorem scalesOf_length (B bits : ℕ) (t : List ℚ) :
    (scalesOf B bits t).length = nBlocksOf B t.length := by
  rw [scalesOf, List.length_map, blocksOf_length]

theorem quantBlock_length (b : List ℚ) (bits : ℕ) :
    (quantBlock b bits).length = b.length := List.length_map _ _

theorem flatten_map_quantBlock_length (bs : List (List ℚ)) (bits : ℕ) :
    ((bs.map (fun b => quantBlock b bits)).flatten).length = bs.flatten.length := by
  induction bs with
  | nil => rfl
  | cons b t ih =>
    simp only [List.map_cons, List.flatten_cons, List.length_append,
      quantBlock_length, ih]

theorem codesOf_length {B : ℕ} (hB : 1 ≤ B) (bits : ℕ) (t : List ℚ) :
    (codesOf B bits t).length = t.length := by
  rw [codesOf, List.length_take, flatten_map_quantBlock_length,
    blocksOf_flatten hB, paddedOf_length hB]
  have := le_nBlocksOf_mul hB t.length
  omega

/-! Packing lemmas -/

theorem pack4_length : ∀ l : List ℤ, (pack4 l).length = l.length / 2
  | [] => rfl
  | [_] => by simp [pack4]
  | _ :: _ :: rest => by
    simp only [pack4, List.length_cons, pack4_length rest]
    omega

theorem pack4Padded_length (cs : List ℤ) :
    (pack4Padded cs).length = (cs.length + 1) / 2 := by
  rw [pack4Padded]
  split_ifs with hodd
  · rw [pack4_length]
    simp only [List.length_append, List.length_cons, List.length_nil]
  · rw [pack4_length]
    omega

theorem lowNibble_lt (c : ℤ) : lowNibble c < 16 := by
  rw [lowNibble]
  have h1 : 0 ≤ c.emod 16 := Int.emod_nonneg c (by norm_num)
  have h2 : c.emod 16 < 16 := Int.emod_lt_of_pos c (by norm_num)
  omega

theorem byte_hi_lo {a b : ℕ} (ha : a < 16) (hb : b < 16) :
    ((a <<< 4) ||| b) / 16 = a ∧ ((a <<< 4) ||| b) % 16 = b := by
  interval_cases a <;> interval_cases b <;> exact ⟨by decide, by decide⟩

theorem signExtend4_lowNibble {c : ℤ} (h1 : -8 ≤ c) (h2 : c ≤ 7) :
    signExtend4 (lowNibble c) = c := by
  interval_cases c <;> decide

theorem unpack4_cons (b : ℕ) (rest : List ℕ) :
    unpack4 (b :: rest) =
      signExtend4 (b / 16) :: signExtend4 (b % 16) :: unpack4 rest := rfl

/-- The 4-bit round trip on an even-length, in-range code stream. -/
theorem unpack4_pack4 : ∀ codes : List ℤ, codes.length % 2 = 0 →
    (∀ c ∈ codes, -8 ≤ c ∧ c ≤ 7) → unpack4 (pack4 codes) = codes
  | [], _, _ => rfl
  | [_], h, _ => by simp at h
  | c0 :: c1 :: rest, h, hr => by
    have h0 := hr c0 (List.mem_cons_self _ _)
    have h1 := hr c1 (List.mem_cons_of_mem _ (List.mem_cons_self _ _))
    have hrest : ∀ c ∈ rest, -8 ≤ c ∧ c ≤ 7 := fun c hc =>
      hr c (List.mem_cons_of_mem _ (List.mem_cons_of_mem _ hc))
    have hlen : rest.length % 2 = 0 := by
      simp only [List.length_cons] at h
      omega
    have hsplit := byte_hi_lo (lowNibble_lt c0) (lowNibble_lt c1)
    rw [pack4, unpack4_cons, hsplit.1, hsplit.2,
      signExtend4_lowNibble h0.1 h0.2, signExtend4_lowNibble h1.1 h1.2,
      unpack4_pack4 rest hlen hrest]

/-! Unfolding lemmas for quantize_blockwise -/

theorem quantize_blockwise_four (shape : List ℕ) (t : List ℚ) {B : ℕ} (hB : B ≠ 0) :
    quantize_blockwise shape t B 4 =
      .ok ⟨.packed (pack4Padded (codesOf B 4 t)), scalesOf B 4 t, shape, 4⟩ := by
  rw [quantize_blockwise]
  simp [hB]

theorem quantize_blockwise_eight (shape : List ℕ) (t : List ℚ) {B : ℕ} (hB : B ≠ 0) :
    quantize_blockwise shape t B 8 =
      .ok ⟨.codes (codesOf B 8 t), scalesOf B 8 t, shape, 8⟩ := by
  rw [quantize_blockwise]
  simp [hB]

theorem quantize_blockwise_bad_bits (shape : List ℕ) (t : List ℚ) (B : ℕ)
    {bits : ℕ} (h4 : bits ≠ 4) (h8 : bits ≠ 8) :
    quantize_blockwise shape t B bits = .error ("Unsupported bit width") := by
  rw [quantize_blockwise]
  simp [h4, h8]

/-- Every produced code is clipped into the signed `bits`-wide range. -/
theorem codesOf_mem_range {B bits : ℕ} {t : List ℚ} {c : ℤ}
    (hc : c ∈ codesOf B bits t) :
    minValOf bits ≤ c ∧ c ≤ maxValOf bits := by
  have hmem : c ∈ ((blocksOf B t).map (fun b => quantBlock b bits)).flatten :=
    List.take_subset _ _ hc
  obtain ⟨l, hl, hcl⟩ := List.mem_flatten.mp hmem
  obtain ⟨b, _, rfl⟩ := List.mem_map.mp hl
  obtain ⟨x, _, rfl⟩ := List.mem_map.mp hcl
  have hmn : minValOf bits ≤ maxValOf bits := by
    have h1 := maxValOf_pos bits
    have h2 := minValOf_eq bits
    omega
  exact clip_mem hmn

/-! Replicate lemmas for the constant-tensor scenarios -/

theorem maxAbs_replicate {n : ℕ} (hn : 0 < n) (x : ℚ) :
    maxAbs (List.replicate n x) = |x| := by
  induction n with
  | zero => omega
  | succ m ih =>
    rw [List.replicate_succ, maxAbs_cons]
    cases Nat.eq_zero_or_pos m with
    | inl h0 => subst h0; simp [maxAbs_nil, abs_nonneg]
    | inr hm => rw [ih hm, max_self]

theorem toBlocks_replicate (k B : ℕ) (x : ℚ) :
    toBlocks k B (List.replicate (k * B) x) = List.replicate k (List.replicate B x) := by
  induction k with
  | zero => rfl
  | succ m ih =>
    have h1 : (m + 1) * B = B + m * B := by ring
    rw [toBlocks, h1, List.take_replicate, List.drop_replicate]
    have h2 : min B (B + m * B) = B := by omega
    have h3 : B + m * B - B = m * B := by omega
    rw [h2, h3, ih, List.replicate_succ]

theorem flatten_replicate {α : Type} (k n : ℕ) (x : α) :
    (List.replicate k (List.replicate n x)).flatten = List.replicate (k * n) x := by
  induction k with
  | zero => simp
  | succ m ih =>
    rw [List.replicate_succ, List.flatten_cons, ih]
    have h1 : (m + 1) * n = n + m * n := by ring
    rw [h1, List.replicate_add]

theorem pack4_replicate (k : ℕ) (c : ℤ) :
    pack4 (List.replicate (2 * k) c) =
      List.replicate k ((lowNibble c <<< 4) ||| lowNibble c) := by
  induction k with
  | zero => rfl
  | succ m ih =>
    have h1 : 2 * (m + 1) = 2 * m + 1 + 1 := by ring
    rw [h1, List.replicate_succ, List.replicate_succ, pack4, ih,
      ← List.replicate_succ]

theorem nBlocksOf_mul {B : ℕ} (hB : 1 ≤ B) (k : ℕ) : nBlocksOf B (k * B) = k := by
  have hB0 : 0 < B := hB
  have heq : k * B + B - 1 = B - 1 + B * k := by
    have h2 : k * B = B * k := Nat.mul_comm k B
    omega
  rw [nBlocksOf, heq, Nat.add_mul_div_left _ _ hB0,
    Nat.div_eq_of_lt (by omega)]
  omega

theorem blocksOf_replicate {B : ℕ} (hB : 1 ≤ B) (k : ℕ) (x : ℚ) :
    blocksOf B (List.replicate (k * B) x) = List.replicate k (List.replicate B x) := by
  rw [blocksOf, List.length_replicate, nBlocksOf_mul hB, paddedOf,
    List.length_replicate, nBlocksOf_mul hB]
  simp only [Nat.sub_self, List.replicate_zero, List.append_nil]
  exact toBlocks_replicate k B x

theorem scalesOf_replicate {B : ℕ} (hB : 1 ≤ B) (k bits : ℕ) (x : ℚ) :
    scalesOf B bits (List.replicate (k * B) x) =
      List.replicate k (scaleOf (List.replicate B x) (maxValOf bits)) := by
  rw [scalesOf, blocksOf_replicate hB, List.map_replicate]

theorem codesOf_replicate {B : ℕ} (hB : 1 ≤ B) (k bits : ℕ) (x : ℚ) :
    codesOf B bits (List.replicate (k * B) x) =
      List.replicate (k * B)
        (quantCode x (scaleOf (List.replicate B x) (maxValOf bits)) bits) := by
  rw [codesOf, blocksOf_replicate hB, List.map_replicate, List.length_replicate,
    quantBlock, List.map_replicate, flatten_replicate, List.take_replicate]
  rw [min_self]

/-- Scale of a constant 3.5-block at 4 bits: `3.5 / 7 = 0.5`. -/
theorem scaleOf_block35 {n : ℕ} (hn : 0 < n) :
    scaleOf (List.replicate n ((7 : ℚ)/2)) (maxValOf 4) = 1/2 := by
  rw [scaleOf, maxAbs_replicate hn]
  have habs : |(7 : ℚ)/2| = 7/2 := abs_of_nonneg (by norm_num)
  rw [habs, if_pos (by norm_num)]
  norm_num [maxValOf]

/-- Scale of a constant 1.0-block at 4 bits: `1 / 7`. -/
theorem scaleOf_block1 {n : ℕ} (hn : 0 < n) :
    scaleOf (List.replicate n (1 : ℚ)) (maxValOf 4) = 1/7 := by
  rw [scaleOf, maxAbs_replicate hn]
  have habs : |(1 : ℚ)| = 1 := abs_of_nonneg (by norm_num)
  rw [habs, if_pos (by norm_num)]
  norm_num [maxValOf]

/-! Orchestrator lemmas -/

theorem quantize_blockwise_ok {B bits : ℕ} (hB : B ≠ 0) (hbits : bits = 4 ∨ bits = 8)
    (t : NamedTensor) :
    ∃ r, quantize_blockwise t.shape t.data B bits = .ok r ∧
      qdataBytes r.data = tensorPackedBytes B bits t ∧
      4 * r.scales.length = tensorScaleBytes B bits t := by
  rcases hbits with rfl | rfl
  · exact ⟨_, quantize_blockwise_four t.shape t.data hB, by
      rw [tensorPackedBytes, quantize_blockwise_four t.shape t.data hB], by
      rw [tensorScaleBytes, quantize_blockwise_four t.shape t.data hB]⟩
  · exact ⟨_, quantize_blockwise_eight t.shape t.data hB, by
      rw [tensorPackedBytes, quantize_blockwise_eight t.shape t.data hB], by
      rw [tensorScaleBytes, quantize_blockwise_eight t.shape t.data hB]⟩

theorem specOrigBytes_cons (t : NamedTensor) (ts : List NamedTensor) :
    specOrigBytes (t :: ts) = nbytes t + specOrigBytes ts := by
  simp [specOrigBytes]

theorem specPackedBytes_cons_pos {t : NamedTensor}
    (h : should_quantize_tensor t.name t.data.length = true)
    (B bits : ℕ) (ts : List NamedTensor) :
    specPackedBytes B bits (t :: ts) =
      tensorPackedBytes B bits t + specPackedBytes B bits ts := by
  simp [specPackedBytes, List.filter_cons, h]

theorem specPackedBytes_cons_neg {t : NamedTensor}
    (h : should_quantize_tensor t.name t.data.length = false)
    (B bits : ℕ) (ts : List NamedTensor) :
    specPackedBytes B bits (t :: ts) = specPackedBytes B bits ts := by
  simp [specPackedBytes, List.filter_cons, h]

theorem specScaleBytes_cons_pos {t : NamedTensor}
    (h : should_quantize_tensor t.name t.data.length = true)
    (B bits : ℕ) (ts : List NamedTensor) :
    specScaleBytes B bits (t :: ts) =
      tensorScaleBytes B bits t + specScaleBytes B bits ts := by
  simp [specScaleBytes, List.filter_cons, h]

theorem specScaleBytes_cons_neg {t : NamedTensor}
    (h : should_quantize_tensor t.name t.data.length = false)
    (B bits : ℕ) (ts : List NamedTensor) :
    specScaleBytes B bits (t :: ts) = specScaleBytes B bits ts := by
  simp [specScaleBytes, List.filter_cons, h]

theorem specKeptBytes_cons_pos {t : NamedTensor}
    (h : should_quantize_tensor t.name t.data.length = true)
    (ts : List NamedTensor) :
    specKeptBytes (t :: ts) = specKeptBytes ts := by
  simp [specKeptBytes, List.filter_cons, h]

theorem specKeptBytes_cons_neg {t : NamedTensor}
    (h : should_quantize_tensor t.name t.data.length = false)
    (ts : List NamedTensor) :
    specKeptBytes (t :: ts) = nbytes t + specKeptBytes ts := by
  simp [specKeptBytes, List.filter_cons, h]

theorem runTensors_ok {B bits : ℕ} (hB : B ≠ 0) (hbits : bits = 4 ∨ bits = 8) :
    ∀ (ts : List NamedTensor) (st : RunState), ∃ st',
      runTensors B bits st ts = .ok st' ∧
      st'.origMB = st.origMB + (specOrigBytes ts : ℚ) / MBq ∧
      st'.qMB = st.qMB + ((specPackedBytes B bits ts : ℚ) + (specKeptBytes ts : ℚ)) / MBq ∧
      st'.sMB = st.sMB + (specScaleBytes B bits ts : ℚ) / MBq
  | [], st => by
    refine ⟨st, rfl, ?_, ?_, ?_⟩ <;>
      simp [specOrigBytes, specPackedBytes, specKeptBytes, specScaleBytes]
  | t :: ts, st => by
    by_cases hsq : should_quantize_tensor t.name t.data.length = true
    · obtain ⟨r, hr, hpb, hsb⟩ := quantize_blockwise_ok hB hbits t
      have hstep : stepTensor B bits st t = .ok
          ⟨st.out ++ [(t.name, match r.data with
                        | .packed bytes => OutEntry.packed bytes
                        | .codes cs => OutEntry.codes cs),
                      (t.name ++ scalesSuffix, OutEntry.scaleArr r.scales)],
            st.origMB + (nbytes t : ℚ) / MBq,
            st.qMB + (qdataBytes r.data : ℚ) / MBq,
            st.sMB + (4 * r.scales.length : ℚ) / MBq,
            st.nQuant + 1,
            st.nKept⟩ := by
        rw [stepTensor, if_pos hsq, hr]
      obtain ⟨st', hrun, ho, hq, hs⟩ := runTensors_ok hB hbits ts
          ⟨st.out ++ [(t.name, match r.data with
                        | .packed bytes => OutEntry.packed bytes
                        | .codes cs => OutEntry.codes cs),
                      (t.name ++ scalesSuffix, OutEntry.scaleArr r.scales)],
            st.origMB + (nbytes t : ℚ) / MBq,
            st.qMB + (qdataBytes r.data : ℚ) / MBq,
            st.sMB + (4 * r.scales.length : ℚ) / MBq,
            st.nQuant + 1,
            st.nKept⟩
      dsimp only at ho hq hs
      refine ⟨st', ?_, ?_, ?_, ?_⟩
      · rw [runTensors, hstep]; exact hrun
      · rw [ho, specOrigBytes_cons]
        push_cast
        ring
      · rw [hq, specPackedBytes_cons_pos hsq, specKeptBytes_cons_pos hsq, ← hpb]
        push_cast
        ring
      · rw [hs, specScaleBytes_cons_pos hsq, ← hsb]
        push_cast
        ring
    · have hsq' : should_quantize_tensor t.name t.data.length = false := by
        simpa using hsq
      have hstep : stepTensor B bits st t = .ok
          ⟨st.out ++ [(t.name, OutEntry.raw t)],
            st.origMB + (nbytes t : ℚ) / MBq,
            st.qMB + (nbytes t : ℚ) / MBq,
            st.sMB,
            st.nQuant,
            st.nKept + 1⟩ := by
        rw [stepTensor, if_neg hsq]
      obtain ⟨st', hrun, ho, hq, hs⟩ := runTensors_ok hB hbits ts
          ⟨st.out ++ [(t.name, OutEntry.raw t)],
            st.origMB + (nbytes t : ℚ) / MBq,
            st.qMB + (nbytes t : ℚ) / MBq,
            st.sMB,
            st.nQuant,
            st.nKept + 1⟩
      dsimp only at ho hq hs
      refine ⟨st', ?_, ?_, ?_, ?_⟩
      · rw [runTensors, hstep]; exact hrun
      · rw [ho, specOrigBytes_cons]
        push_cast
        ring
      · rw [hq, specPackedBytes_cons_neg hsq', specKeptBytes_cons_neg hsq']
        push_cast
        ring
      · rw [hs, specScaleBytes_cons_neg hsq']

theorem MBq_ne_zero : MBq ≠ 0 := by norm_num [MBq]

theorem div_MBq_div (o p : ℚ) : (o / MBq) / (p / MBq) = o / p := by
  rcases eq_or_ne p 0 with h | h
  · simp [h]
  · field_simp
    rw [mul_assoc, mul_div_assoc, div_self (mul_ne_zero MBq_ne_zero h), mul_one]

/-- Under a valid configuration, and when some tensor contributes at least one
byte to the quantized total (so line 292's division does not raise), the whole
model run succeeds and the reported ratio is originalBytes over
(packed + kept + scale) bytes. -/
theorem quantize_model_ok (B bits : ℕ) (hB : B ≠ 0) (hbits : bits = 4 ∨ bits = 8)
    (ts : List NamedTensor)
    (hnz : specPackedBytes B bits ts + specKeptBytes ts + specScaleBytes B bits ts ≠ 0) :
    ∃ out stats, quantize_model ts B bits = .ok (out, stats) ∧
      stats.compressionFactor = (specOrigBytes ts : ℚ) /
        ((specPackedBytes B bits ts : ℚ) + (specKeptBytes ts : ℚ) +
          (specScaleBytes B bits ts : ℚ)) ∧
      stats.originalMB = (specOrigBytes ts : ℚ) / MBq ∧
      stats.quantizedMB = ((specPackedBytes B bits ts : ℚ) + (specKeptBytes ts : ℚ)) / MBq ∧
      stats.scalesMB = (specScaleBytes B bits ts : ℚ) / MBq := by
  obtain ⟨st', hrun, ho, hq, hs⟩ := runTensors_ok hB hbits ts ⟨[], 0, 0, 0, 0, 0⟩
  dsimp only at ho hq hs
  rw [zero_add] at ho hq hs
  have hne : ¬ (st'.qMB + st'.sMB = 0) := by
    rw [hq, hs, div_add_div_same]
    rw [show (specPackedBytes B bits ts : ℚ) + (specKeptBytes ts : ℚ) +
        (specScaleBytes B bits ts : ℚ) =
      ((specPackedBytes B bits ts + specKeptBytes ts + specScaleBytes B bits ts : ℕ) : ℚ)
      from by push_cast; ring]
    exact div_ne_zero (Nat.cast_ne_zero.mpr hnz) MBq_ne_zero
  refine ⟨st'.out, _, by rw [quantize_model, hrun]; dsimp only; rw [if_neg hne],
    ?_, ho, hq, hs⟩
  dsimp only
  rw [ho, hq, hs, div_add_div_same, ← Nat.cast_add, ← Nat.cast_add, div_MBq_div]

/-- Under a valid configuration, a model whose tensors contribute zero bytes in
total dies with line 292's `ZeroDivisionError`. -/
theorem quantize_model_zero_total (B bits : ℕ) (hB : B ≠ 0)
    (hbits : bits = 4 ∨ bits = 8) (ts : List NamedTensor)
    (hz : specPackedBytes B bits ts + specKeptBytes ts + specScaleBytes B bits ts = 0) :
    quantize_model ts B bits = .error ("ZeroDivisionError") := by
  obtain ⟨st', hrun, ho, hq, hs⟩ := runTensors_ok hB hbits ts ⟨[], 0, 0, 0, 0, 0⟩
  dsimp only at ho hq hs
  rw [zero_add] at ho hq hs
  have hzq : st'.qMB + st'.sMB = 0 := by
    rw [hq, hs, div_add_div_same]
    rw [show (specPackedBytes B bits ts : ℚ) + (specKeptBytes ts : ℚ) +
        (specScaleBytes B bits ts : ℚ) =
      ((specPackedBytes B bits ts + specKeptBytes ts + specScaleBytes B bits ts : ℕ) : ℚ)
      from by push_cast; ring, hz]
    norm_num
  rw [quantize_model, hrun]
  dsimp only
  rw [if_pos hzq]

theorem runTensors_error_of_selected {B bits : ℕ} (h4 : bits ≠ 4) (h8 : bits ≠ 8) :
    ∀ (ts : List NamedTensor) (st : RunState),
      (∃ t ∈ ts, should_quantize_tensor t.name t.data.length = true) →
      runTensors B bits st ts = .error ("Unsupported bit width")
  | [], _, h => by
    obtain ⟨t, ht, _⟩ := h
    cases ht
  | t :: ts, st, h => by
    by_cases hsq : should_quantize_tensor t.name t.data.length = true
    · rw [runTensors, stepTensor, if_pos hsq,
        quantize_blockwise_bad_bits t.shape t.data B h4 h8]
    · obtain ⟨t', ht', hsel⟩ := h
      rcases List.mem_cons.mp ht' with rfl | htail
      · exact absurd hsel hsq
      · rw [runTensors, stepTensor, if_neg hsq]
        exact runTensors_error_of_selected h4 h8 ts _ ⟨t', htail, hsel⟩

theorem runTensors_ok_of_none (B bits : ℕ) :
    ∀ (ts : List NamedTensor) (st : RunState),
      (∀ t ∈ ts, should_quantize_tensor t.name t.data.length = false) →
      ∃ st', runTensors B bits st ts = .ok st' ∧
        st'.qMB = st.qMB + (specKeptBytes ts : ℚ) / MBq ∧
        st'.sMB = st.sMB
  | [], st, _ => ⟨st, rfl, by simp [specKeptBytes], rfl⟩
  | t :: ts, st, h => by
    have hsqf : should_quantize_tensor t.name t.data.length = false :=
      h t (List.mem_cons_self t ts)
    have hsq : ¬ should_quantize_tensor t.name t.data.length = true := by
      rw [hsqf]
      exact Bool.false_ne_true
    obtain ⟨st', hst', hq, hs⟩ := runTensors_ok_of_none B bits ts
      ⟨st.out ++ [(t.name, OutEntry.raw t)],
        st.origMB + (nbytes t : ℚ) / MBq,
        st.qMB + (nbytes t : ℚ) / MBq,
        st.sMB, st.nQuant, st.nKept + 1⟩
      (fun t' ht' => h t' (List.mem_cons_of_mem t ht'))
    dsimp only at hq hs
    refine ⟨st', ?_, ?_, hs⟩
    · rw [runTensors, stepTensor, if_neg hsq]
      exact hst'
    · rw [hq, specKeptBytes_cons_neg hsqf]
      push_cast
      ring

/-- With no tensor selected for quantization the loop never reaches the bits
check, so the run completes — for any bit width — whenever the kept tensors
total at least one byte (line 292's division succeeds). -/
theorem quantize_model_ok_of_none (B bits : ℕ) (ts : List NamedTensor)
    (h : ∀ t ∈ ts, should_quantize_tensor t.name t.data.length = false)
    (hk : specKeptBytes ts ≠ 0) :
    runOk (quantize_model ts B bits) = true := by
  obtain ⟨st', hst', hq, hs⟩ := runTensors_ok_of_none B bits ts ⟨[], 0, 0, 0, 0, 0⟩ h
  dsimp only at hq hs
  rw [zero_add] at hq
  have hne : ¬ (st'.qMB + st'.sMB = 0) := by
    rw [hq, hs, add_zero]
    exact div_ne_zero (Nat.cast_ne_zero.mpr hk) MBq_ne_zero
  rw [quantize_model, hst']
  dsimp only
  rw [if_neg hne]
  rfl

/-- With no tensor selected and zero total bytes — the empty model, or all
tensors of zero size — the run dies with line 292's `ZeroDivisionError`, again
for any bit width. -/
theorem quantize_model_zero_of_none (B bits : ℕ) (ts : List NamedTensor)
    (h : ∀ t ∈ ts, should_quantize_tensor t.name t.data.length = false)
    (hk : specKeptBytes ts = 0) :
    quantize_model ts B bits = .error ("ZeroDivisionError") := by
  obtain ⟨st', hst', hq, hs⟩ := runTensors_ok_of_none B bits ts ⟨[], 0, 0, 0, 0, 0⟩ h
  dsimp only at hq hs
  rw [zero_add] at hq
  have hz : st'.qMB + st'.sMB = 0 := by
    rw [hq, hs, add_zero, hk]
    norm_num
  rw [quantize_model, hst']
  dsimp only
  rw [if_pos hz]

/-- With an invalid bit width and at least one selected tensor the run aborts
with the quantizer's `ValueError`. -/
theorem quantize_model_error_of_selected {B bits : ℕ} (h4 : bits ≠ 4) (h8 : bits ≠ 8)
    (ts : List NamedTensor)
    (h : ∃ t ∈ ts, should_quantize_tensor t.name t.data.length = true) :
    quantize_model ts B bits = .error ("Unsupported bit width") := by
  rw [quantize_model, runTensors_error_of_selected h4 h8 ts _ h]

theorem quantCode_zero (bits : ℕ) : quantCode 0 1 bits = 0 := by
  have h0 : (0 : ℚ) / 1 = 0 := by norm_num
  rw [quantCode, h0, roundEven_zero]
  have h1 := maxValOf_pos bits
  have h2 := minValOf_eq bits
  exact clip_eq_self (by omega) (by omega)

/-! Claim theorems -/

/-- C1 counterexample: the singleton code stream `[1]` (its only code lies in
`[−8, 7]`) does not round-trip exactly: the packer pads an odd-length stream
with one zero code, so unpacking returns `[1, 0]`, not `[1]`. -/
theorem C1_counterexample :
    (∀ c ∈ ([1] : List ℤ), -8 ≤ c ∧ c ≤ 7) ∧
      unpack4 (pack4Padded [1]) ≠ [1] := by decide

/-- C1 (amended): for every finite sequence of 4-bit signed codes, each in
`[−8, 7]`, unpacking the packed buffer returns exactly the original sequence
when its length is even, and the original sequence followed by the single
zero pad code when its length is odd. -/
theorem C1_pack_unpack_roundtrip (codes : List ℤ)
    (hr : ∀ c ∈ codes, -8 ≤ c ∧ c ≤ 7) :
    unpack4 (pack4Padded codes) =
      (if codes.length % 2 = 1 then codes ++ [0] else codes) := by
  rw [pack4Padded]
  split_ifs with hodd
  · apply unpack4_pack4
    · rw [List.length_append]
      simp only [List.length_cons, List.length_nil]
      omega
    · intro c hc
      rcases List.mem_append.mp hc with h | h
      · exact hr c h
      · rcases List.mem_singleton.mp h with rfl
        exact ⟨by norm_num, by norm_num⟩
  · exact unpack4_pack4 codes (by omega) hr

/-- C1 witness: the even-length in-range stream `[1, −8]` round-trips
exactly. -/
theorem C1_witness : unpack4 (pack4Padded [1, -8]) = [1, -8] := by
  have h := C1_pack_unpack_roundtrip [1, -8] (by decide)
  simpa using h

/-- C2: for every element `x` of every quantized block with computed scale
`s`, `|dequantize(quantize(x)) − clip(x, levelMin·s, levelMax·s)| ≤ s/2`. -/
theorem C2_dequant_error_bound (bits : ℕ) (b : List ℚ) (x : ℚ) (hx : x ∈ b) :
    |dequant (quantCode x (scaleOf b (maxValOf bits)) bits) (scaleOf b (maxValOf bits)) -
      clipQ x (((minValOf bits : ℤ) : ℚ) * scaleOf b (maxValOf bits))
              (((maxValOf bits : ℤ) : ℚ) * scaleOf b (maxValOf bits))| ≤
      scaleOf b (maxValOf bits) / 2 :=
  dequant_error_core bits b hx

/-- C2 witness: the bound evaluated at the one-element block `[7]` at 4 bits. -/
theorem C2_witness :
    |dequant (quantCode 7 (scaleOf [(7 : ℚ)] (maxValOf 4)) 4) (scaleOf [(7 : ℚ)] (maxValOf 4)) -
      clipQ 7 (((minValOf 4 : ℤ) : ℚ) * scaleOf [(7 : ℚ)] (maxValOf 4))
              (((maxValOf 4 : ℤ) : ℚ) * scaleOf [(7 : ℚ)] (maxValOf 4))| ≤
      scaleOf [(7 : ℚ)] (maxValOf 4) / 2 :=
  C2_dequant_error_bound 4 [(7 : ℚ)] 7 (List.mem_singleton.mpr rfl)

/-- C3 counterexample: in the block `[7, 2.5]` at 4 bits the computed scale is
1, so element 2.5 sits exactly halfway between 2 and 3.  The code produced is
2 (numpy's ties-to-even), while rounding the tie away from zero — as the claim
asserts — would give code 3. -/
theorem C3_counterexample :
    scaleOf [7, 5/2] (maxValOf 4) = 1 ∧
    quantCode (5/2) 1 4 = 2 ∧
    clip (roundHalfAway ((5/2) / 1)) (minValOf 4) (maxValOf 4) = 3 ∧
    (2 : ℤ) ≠ 3 := by decide

/-- C3 (amended): the quantizer computes
`code = clip(round(x/s), levelMin, levelMax)` where `round` is numpy's
round-half-to-even: at an exact halfway point the result is one of the two
neighbouring integers, namely the even one — not the one with larger absolute
value. -/
theorem C3_quantizer_rounding :
    (∀ (x s : ℚ) (bits : ℕ),
        quantCode x s bits = clip (roundEven (x / s)) (minValOf bits) (maxValOf bits)) ∧
    (∀ (q : ℚ) (n : ℤ), q = (n : ℚ) + 1/2 →
        Even (roundEven q) ∧ (roundEven q = n ∨ roundEven q = n + 1)) := by
  constructor
  · intro x s bits; rfl
  · rintro q n rfl
    rw [roundEven_tie]
    split_ifs with he
    · exact ⟨he, Or.inl rfl⟩
    · exact ⟨Int.even_add_one.mpr he, Or.inr rfl⟩

/-- C3 witness: at the tie 5/2 the rounding picks the even neighbour 2. -/
theorem C3_witness :
    Even (roundEven (5/2 : ℚ)) ∧
      (roundEven (5/2 : ℚ) = 2 ∨ roundEven (5/2 : ℚ) = 2 + 1) :=
  C3_quantizer_rounding.2 (5/2) 2 (by norm_num)

/-- C4 counterexample: the block `[7]` at 4 bits is not all-zero, yet its
computed scale is `7/7 = 1.0` — refuting the claimed "scale == 1.0 iff the
source block is all-zero". -/
theorem C4_counterexample :
    scaleOf [(7 : ℚ)] (maxValOf 4) = 1 ∧ ¬ (∀ x ∈ [(7 : ℚ)], x = 0) := by decide

/-- C4 (amended): every computed scale is ≥ 0, and an all-zero block has scale
1.0 with every code 0.  (The "only if" direction of the claimed iff is false:
any block whose maximum absolute value equals `levelMax` also gets scale 1.) -/
theorem C4_scale_invariant (bits : ℕ) (b : List ℚ) :
    0 ≤ scaleOf b (maxValOf bits) ∧
    ((∀ x ∈ b, x = 0) →
      scaleOf b (maxValOf bits) = 1 ∧ ∀ c ∈ quantBlock b bits, c = 0) := by
  refine ⟨scaleOf_nonneg b bits, fun h => ⟨scaleOf_all_zero _ h, ?_⟩⟩
  intro c hc
  obtain ⟨x, hxb, rfl⟩ := List.mem_map.mp hc
  rw [h x hxb, scaleOf_all_zero _ h]
  exact quantCode_zero bits

/-- C4 witness: the all-zero block `[0, 0]` at 4 bits has scale 1 and all
codes 0. -/
theorem C4_witness :
    scaleOf [(0 : ℚ), 0] (maxValOf 4) = 1 ∧
      ∀ c ∈ quantBlock [(0 : ℚ), 0] 4, c = 0 :=
  (C4_scale_invariant 4 [0, 0]).2 (by decide)

/-- C5 counterexample: with the invalid bit width 5 and a model whose only
tensor (one float32 element, named "b") is kept by the policy, the run
completes and produces output: no `InvalidConfiguration` error is raised
before (or during) processing, refuting "validated before any tensor is
touched" — the `bits` check lives inside `quantize_blockwise`, which is only
reached for tensors selected for quantization, and `block_size` is never
validated at all. -/
theorem C5_counterexample :
    ((5 : ℕ) ≠ 4 ∧ (5 : ℕ) ≠ 8) ∧
    runOk (quantize_model [⟨("b").toList, [1], [1]⟩] 128 5) = true := by decide

/-- C5 (amended): an invalid `bits` aborts the run (with the quantizer's
`ValueError`) exactly when some tensor is selected for quantization, at the
moment that tensor is processed — after every tensor has already been read;
a run whose tensors are all kept and total at least one byte completes and
produces output; an all-kept model whose tensors total zero bytes dies with
`ZeroDivisionError` at the statistics computation (line 292) instead;
`blockSize` is not validated. -/
theorem C5_validation (B bits : ℕ) (h4 : bits ≠ 4) (h8 : bits ≠ 8)
    (ts : List NamedTensor) :
    ((∃ t ∈ ts, should_quantize_tensor t.name t.data.length = true) →
      quantize_model ts B bits = .error ("Unsupported bit width")) ∧
    ((∀ t ∈ ts, should_quantize_tensor t.name t.data.length = false) →
      specKeptBytes ts ≠ 0 →
      runOk (quantize_model ts B bits) = true) ∧
    ((∀ t ∈ ts, should_quantize_tensor t.name t.data.length = false) →
      specKeptBytes ts = 0 →
      quantize_model ts B bits = .error ("ZeroDivisionError")) :=
  ⟨fun h => quantize_model_error_of_selected h4 h8 ts h,
   fun h hk => quantize_model_ok_of_none B bits ts h hk,
   fun h hk => quantize_model_zero_of_none B bits ts h hk⟩

/-- C5 witness: a model with one selected weight tensor and bits = 5 aborts
with the `ValueError`. -/
theorem C5_witness :
    quantize_model [⟨("w.weight").toList, [512], List.replicate 512 1⟩] 128 5 =
      .error ("Unsupported bit width") := by
  refine (C5_validation 128 5 (by decide) (by decide) _).1
    ⟨⟨("w.weight").toList, [512], List.replicate 512 1⟩, List.mem_cons_self _ _, ?_⟩
  show should_quantize_tensor (("w.weight").toList) (List.replicate 512 (1 : ℚ)).length = true
  rw [List.length_replicate]
  decide

/-- C6: in 4-bit mode the output is the packed pairing of the truncated code
stream (`pack4Padded` pads an odd-length stream with one zero code and packs
each pair with the first code in the high nibble); Scenario A: 256 float32
values 3.5 with blockSize 128 give 2 blocks of scale 0.5, all codes 7, packed
as 128 bytes 0x77. -/
theorem C6_packing :
    (∀ (shape : List ℕ) (t : List ℚ) (B : ℕ), B ≠ 0 →
      quantize_blockwise shape t B 4 =
        .ok ⟨.packed (pack4Padded (codesOf B 4 t)), scalesOf B 4 t, shape, 4⟩) ∧
    (∀ cs : List ℤ, cs.length % 2 = 1 → pack4Padded cs = pack4 (cs ++ [0])) ∧
    (∀ cs : List ℤ, cs.length % 2 = 0 → pack4Padded cs = pack4 cs) ∧
    (∀ (c0 c1 : ℤ) (rest : List ℤ), pack4 (c0 :: c1 :: rest) =
      ((lowNibble c0 <<< 4) ||| lowNibble c1) :: pack4 rest) ∧
    scalesOf 128 4 (List.replicate 256 ((7 : ℚ)/2)) = [1/2, 1/2] ∧
    codesOf 128 4 (List.replicate 256 ((7 : ℚ)/2)) = List.replicate 256 7 ∧
    quantize_blockwise [256] (List.replicate 256 ((7 : ℚ)/2)) 128 4 =
      .ok ⟨.packed (List.replicate 128 0x77), [1/2, 1/2], [256], 4⟩ := by
  have hrep : List.replicate 256 ((7 : ℚ)/2) = List.replicate (2 * 128) ((7 : ℚ)/2) := rfl
  have hscales : scalesOf 128 4 (List.replicate 256 ((7 : ℚ)/2)) = [1/2, 1/2] := by
    rw [hrep, scalesOf_replicate (by norm_num), scaleOf_block35 (by norm_num)]
    rfl
  have hcodes : codesOf 128 4 (List.replicate 256 ((7 : ℚ)/2)) = List.replicate 256 7 := by
    rw [hrep, codesOf_replicate (by norm_num), scaleOf_block35 (by norm_num)]
    rw [show quantCode ((7 : ℚ)/2) (1/2) 4 = 7 from by decide]
  refine ⟨fun shape t B hB => quantize_blockwise_four shape t hB,
    fun cs h => by rw [pack4Padded, if_pos h],
    fun cs h => by rw [pack4Padded, if_neg (by omega)],
    fun c0 c1 rest => rfl, hscales, hcodes, ?_⟩
  rw [quantize_blockwise_four [256] _ (by norm_num), hscales, hcodes]
  have hpack : pack4Padded (List.replicate 256 (7 : ℤ)) = List.replicate 128 0x77 := by
    rw [pack4Padded, if_neg (by simp)]
    rw [show List.replicate 256 (7 : ℤ) = List.replicate (2 * 128) (7 : ℤ) from rfl,
      pack4_replicate, show ((lowNibble 7 <<< 4) ||| lowNibble 7) = 0x77 from by decide]
  rw [hpack]

/-- C6 witness: the Scenario A instance of the general 4-bit packing shape. -/
theorem C6_witness :
    quantize_blockwise [256] (List.replicate 256 ((7 : ℚ)/2)) 128 4 =
      .ok ⟨.packed (pack4Padded (codesOf 128 4 (List.replicate 256 ((7 : ℚ)/2)))),
           scalesOf 128 4 (List.replicate 256 ((7 : ℚ)/2)), [256], 4⟩ :=
  C6_packing.1 [256] (List.replicate 256 ((7 : ℚ)/2)) 128 (by norm_num)

/-- C7: the tensor selection policy is a pure function of (name, elementCount)
equal to the spec's ordered first-match rule list, and Scenario C:
("layer1.bias", 2000) is kept — the bias rule outranks the size rule. -/
theorem C7_policy :
    (∀ (name : List Char) (size : ℕ),
        should_quantize_tensor name size = specPolicy name size) ∧
    should_quantize_tensor (("layer1.bias").toList) 2000 = false := by
  refine ⟨fun name size => ?_, by decide⟩
  rw [should_quantize_tensor, specPolicy, specRules]
  simp only [firstMatch, decide_eq_true_eq]

/-- The two-tensor model of the C8 counterexample: one quantized float32
weight tensor of 512 elements (2048 bytes) and one kept one-element tensor
(4 bytes). -/
def modelC8 : List NamedTensor :=
  [⟨("a.weight").toList, [512], List.replicate 512 1⟩,
   ⟨("b").toList, [1], [1]⟩]

theorem modelC8_sel1 :
    should_quantize_tensor (("a.weight").toList)
      ((List.replicate 512 (1 : ℚ)).length) = true := by
  rw [List.length_replicate]
  decide

set_option maxRecDepth 40000

theorem modelC8_sel2 :
    should_quantize_tensor (("b").toList) (([1] : List ℚ).length) = false := by
  decide

theorem modelC8_packed : specPackedBytes 128 4 modelC8 = 256 := by
  rw [modelC8, specPackedBytes_cons_pos modelC8_sel1,
    specPackedBytes_cons_neg modelC8_sel2]
  rw [show specPackedBytes 128 4 [] = 0 from rfl]
  rw [tensorPackedBytes, quantize_blockwise_four _ _ (by norm_num)]
  dsimp only [qdataBytes]
  rw [pack4Padded_length, codesOf_length (by norm_num), List.length_replicate]

theorem modelC8_scales : specScaleBytes 128 4 modelC8 = 16 := by
  rw [modelC8, specScaleBytes_cons_pos modelC8_sel1,
    specScaleBytes_cons_neg modelC8_sel2]
  rw [show specScaleBytes 128 4 [] = 0 from rfl]
  rw [tensorScaleBytes, quantize_blockwise_four _ _ (by norm_num)]
  dsimp only
  rw [scalesOf_length, List.length_replicate]
  decide

theorem modelC8_orig : specOrigBytes modelC8 = 2052 := by
  rw [modelC8, specOrigBytes_cons, specOrigBytes_cons]
  rw [show specOrigBytes [] = 0 from rfl]
  rw [show nbytes ⟨("a.weight").toList, [512], List.replicate 512 1⟩ =
    4 * (List.replicate 512 (1 : ℚ)).length from rfl, List.length_replicate]
  rfl

theorem modelC8_kept : specKeptBytes modelC8 = 4 := by
  rw [modelC8, specKeptBytes_cons_pos modelC8_sel1,
    specKeptBytes_cons_neg modelC8_sel2]
  rfl

/-- C8 counterexample: on a model with one quantized 512-element weight
tensor (packed bytes 256, scale bytes 16) and one kept 4-byte tensor, the
reported compression ratio is 2052/276 — the kept tensor's 4 bytes are in the
denominator — and not 2052/(256+16) as the claim's formula states. -/
theorem C8_counterexample :
    reportedRatioQ (quantize_model modelC8 128 4) = 2052 / 276 ∧
    specOrigBytes modelC8 = 2052 ∧
    specPackedBytes 128 4 modelC8 = 256 ∧
    specScaleBytes 128 4 modelC8 = 16 ∧
    specKeptBytes modelC8 = 4 ∧
    (2052 / 276 : ℚ) ≠ (2052 : ℚ) / (256 + 16) := by
  obtain ⟨out, stats, heq, hcf, -, -, -⟩ :=
    quantize_model_ok 128 4 (by norm_num) (Or.inl rfl) modelC8
      (by rw [modelC8_packed, modelC8_kept, modelC8_scales]; norm_num)
  refine ⟨?_, modelC8_orig, modelC8_packed, modelC8_scales, modelC8_kept,
    by norm_num⟩
  rw [heq]
  show stats.compressionFactor = 2052 / 276
  rw [hcf, modelC8_orig, modelC8_packed, modelC8_scales, modelC8_kept]
  norm_num

/-- C8 (amended): after all tensors are processed — and provided the model's
tensors total at least one byte, so that line 292's division does not raise
`ZeroDivisionError` — the reported compressionRatio equals
totalOriginalBytes / (totalPackedBytes + totalKeptBytes + totalScaleBytes):
a kept tensor's byte size is accumulated into the same `quantized_size_mb`
total as the packed bytes (line 279), not into a separate unquantized total
outside the denominator. -/
theorem C8_compression_ratio {B bits : ℕ} (hB : B ≠ 0)
    (hbits : bits = 4 ∨ bits = 8) (ts : List NamedTensor)
    (hnz : specPackedBytes B bits ts + specKeptBytes ts + specScaleBytes B bits ts ≠ 0) :
    ∃ out stats, quantize_model ts B bits = .ok (out, stats) ∧
      stats.compressionFactor = (specOrigBytes ts : ℚ) /
        ((specPackedBytes B bits ts : ℚ) + (specKeptBytes ts : ℚ) +
          (specScaleBytes B bits ts : ℚ)) := by
  obtain ⟨out, stats, heq, hcf, -, -, -⟩ := quantize_model_ok B bits hB hbits ts hnz
  exact ⟨out, stats, heq, hcf⟩

/-- C8 witness: the ratio formula instantiated on the counterexample model
(packed 256 + kept 4 + scale 16 bytes, a nonzero total). -/
theorem C8_witness :
    ∃ out stats, quantize_model modelC8 128 4 = .ok (out, stats) ∧
      stats.compressionFactor = (specOrigBytes modelC8 : ℚ) /
        ((specPackedBytes 128 4 modelC8 : ℚ) + (specKeptBytes modelC8 : ℚ) +
          (specScaleBytes 128 4 modelC8 : ℚ)) :=
  C8_compression_ratio (by norm_num) (Or.inl rfl) modelC8
    (by rw [modelC8_packed, modelC8_kept, modelC8_scales]; norm_num)

/-- C9: for every quantized tensor, the number of scales equals
`ceil(elementCount / B)` — stated both as the source's `(n + B − 1) / B` and
by the characterisation `n ≤ numScales·B < n + B` — and every code lies in
`[−2^(bits−1), 2^(bits−1)−1]`. -/
theorem C9_scales_and_range (shape : List ℕ) (t : List ℚ) (B bits : ℕ)
    (hB : 1 ≤ B) (hbits : bits = 4 ∨ bits = 8) :
    (minValOf bits = -(2 ^ (bits - 1)) ∧ maxValOf bits = 2 ^ (bits - 1) - 1) ∧
    ∃ r, quantize_blockwise shape t B bits = .ok r ∧
      r.scales.length = (t.length + B - 1) / B ∧
      t.length ≤ r.scales.length * B ∧
      r.scales.length * B < t.length + B ∧
      ∀ c ∈ codesOf B bits t, minValOf bits ≤ c ∧ c ≤ maxValOf bits := by
  have hB0 : B ≠ 0 := by omega
  refine ⟨by rcases hbits with rfl | rfl <;> exact ⟨by decide, by decide⟩, ?_⟩
  rcases hbits with rfl | rfl
  · refine ⟨_, quantize_blockwise_four shape t hB0, ?_, ?_, ?_,
      fun c hc => codesOf_mem_range hc⟩
    · show (scalesOf B 4 t).length = (t.length + B - 1) / B
      rw [scalesOf_length]; rfl
    · show t.length ≤ (scalesOf B 4 t).length * B
      rw [scalesOf_length]; exact le_nBlocksOf_mul hB t.length
    · show (scalesOf B 4 t).length * B < t.length + B
      rw [scalesOf_length]; exact nBlocksOf_mul_lt hB t.length
  · refine ⟨_, quantize_blockwise_eight shape t hB0, ?_, ?_, ?_,
      fun c hc => codesOf_mem_range hc⟩
    · show (scalesOf B 8 t).length = (t.length + B - 1) / B
      rw [scalesOf_length]; rfl
    · show t.length ≤ (scalesOf B 8 t).length * B
      rw [scalesOf_length]; exact le_nBlocksOf_mul hB t.length
    · show (scalesOf B 8 t).length * B < t.length + B
      rw [scalesOf_length]; exact nBlocksOf_mul_lt hB t.length

/-- C9 witness: three elements at block size 2 and 4 bits give 2 scales. -/
theorem C9_witness :
    (minValOf 4 = -(2 ^ (4 - 1)) ∧ maxValOf 4 = 2 ^ (4 - 1) - 1) ∧
    ∃ r, quantize_blockwise [3] [1, -1, 1/2] 2 4 = .ok r ∧
      r.scales.length = (([1, -1, 1/2] : List ℚ).length + 2 - 1) / 2 ∧
      ([1, -1, 1/2] : List ℚ).length ≤ r.scales.length * 2 ∧
      r.scales.length * 2 < ([1, -1, 1/2] : List ℚ).length + 2 ∧
      ∀ c ∈ codesOf 2 4 [1, -1, 1/2], minValOf 4 ≤ c ∧ c ≤ maxValOf 4 :=
  C9_scales_and_range [3] [1, -1, 1/2] 2 4 (by norm_num) (Or.inl rfl)

theorem blocksOf_nil {B : ℕ} (hB : 1 ≤ B) : blocksOf B [] = [] := by
  rw [blocksOf]
  simp only [List.length_nil]
  rw [show nBlocksOf B 0 = 0 from by rw [nBlocksOf]; exact Nat.div_eq_of_lt (by omega)]
  rfl

theorem scalesOf_nil {B : ℕ} (hB : 1 ≤ B) (bits : ℕ) : scalesOf B bits [] = [] := by
  rw [scalesOf, blocksOf_nil hB]
  rfl

/-- C10: with bits = 4 the packed buffer has exactly `ceil(n/2)` bytes (a
zero-element tensor gives an empty buffer and no scales, without error); with
bits = 8 the output is exactly `n` one-byte codes together with the original
shape. -/
theorem C10_output_sizes (shape : List ℕ) (t : List ℚ) (B : ℕ) (hB : 1 ≤ B) :
    (∃ bytes, quantize_blockwise shape t B 4 =
        .ok ⟨.packed bytes, scalesOf B 4 t, shape, 4⟩ ∧
        bytes.length = (t.length + 1) / 2) ∧
    quantize_blockwise shape ([] : List ℚ) B 4 = .ok ⟨.packed [], [], shape, 4⟩ ∧
    (∃ cs, quantize_blockwise shape t B 8 =
        .ok ⟨.codes cs, scalesOf B 8 t, shape, 8⟩ ∧ cs.length = t.length) := by
  have hB0 : B ≠ 0 := by omega
  refine ⟨⟨pack4Padded (codesOf B 4 t), quantize_blockwise_four shape t hB0, ?_⟩,
    ?_, ⟨codesOf B 8 t, quantize_blockwise_eight shape t hB0, codesOf_length hB 8 t⟩⟩
  · rw [pack4Padded_length, codesOf_length hB]
  · rw [quantize_blockwise_four shape [] hB0, scalesOf_nil hB]
    rfl

/-- C10 witness: two elements at block size 2: one packed byte for 4 bits,
two codes for 8 bits, and the empty tensor gives the empty result. -/
theorem C10_witness :
    (∃ bytes, quantize_blockwise [2] [1, -1] 2 4 =
        .ok ⟨.packed bytes, scalesOf 2 4 [1, -1], [2], 4⟩ ∧
        bytes.length = (([1, -1] : List ℚ).length + 1) / 2) ∧
    quantize_blockwise [2] ([] : List ℚ) 2 4 = .ok ⟨.packed [], [], [2], 4⟩ ∧
    (∃ cs, quantize_blockwise [2] [1, -1] 2 8 =
        .ok ⟨.codes cs, scalesOf 2 8 [1, -1], [2], 8⟩ ∧
        cs.length = ([1, -1] : List ℚ).length) :=
  C10_output_sizes [2] [1, -1] 2 (by norm_num)

end BlockQuant
